import Mathlib

/-!
Shallow embedding of the VoteLedger blockchain core (src/app.py, src/app2.py,
src/prototype.py; the `Block`/`Blockchain` classes are identical in all three
files) together with the receipt-verification, fraud-detection and
remediation code paths that the specification describes.

Modelling conventions:
* Python `time.time()` timestamps are nondeterministic inputs; every operation
  that reads the clock takes the timestamp as an explicit `Nat` argument.
* `hashlib.sha256(json.dumps(self.__dict__, sort_keys=True, default=str))` is
  modelled by an explicit digest function `H : HashInput → String` passed as a
  parameter.  `HashInput` records exactly which dictionary is serialized: at
  construction time `self.__dict__` holds the five fields
  index/transactions/timestamp/previous_hash/nonce (the `hash` attribute is
  assigned only after `compute_hash` returns), while any later call to
  `compute_hash` serializes a dictionary that additionally contains the stored
  `hash` field.  Collision resistance of the digest (assumed by the spec) is
  expressed as injectivity of `H` where needed.
* The Python `set` of admitted voters is a `Finset String`.
* The pandas dataframes (`votes_table`, `voters_df`) are lists of records;
  dataframe row indices are list positions.
-/

/-- Transaction dict built by `Blockchain.add_transaction`, with keys
voter_id, candidate, receipt_id and timestamp. -/
structure Tx where
  voter_id : String
  candidate : String
  receipt_id : String
  timestamp : Nat
deriving DecidableEq, Repr

/-- Fields of the `__dict__` of a `Block` at the moment `compute_hash` is first
called from `__init__` (the `hash` attribute does not exist yet). -/
structure BlockData where
  index : Nat
  transactions : List Tx
  timestamp : Nat
  previous_hash : String
  nonce : Nat
deriving DecidableEq, Repr

/-- Input fed to the digest `sha256(json.dumps(self.__dict__, ...))`: either
the five-field dictionary seen during `__init__`, or the six-field dictionary
(including the stored `hash`) seen by any later `compute_hash` call. -/
inductive HashInput where
  | init (d : BlockData)
  | full (d : BlockData) (hash : String)
deriving DecidableEq, Repr

/-- Sealed block: the five data fields plus the stored `hash` attribute. -/
structure Block where
  index : Nat
  transactions : List Tx
  timestamp : Nat
  previous_hash : String
  nonce : Nat
  hash : String
deriving DecidableEq, Repr

/-- Dictionary of the data fields of a constructed block. -/
def Block.data (b : Block) : BlockData :=
  ⟨b.index, b.transactions, b.timestamp, b.previous_hash, b.nonce⟩

/-- `Block.__init__(index, transactions, timestamp, previous_hash)`: sets
`nonce = 0` and stores `hash = compute_hash()` where `compute_hash` serializes
the `__dict__` *without* a `hash` key (it is not yet assigned). -/
def mkBlock (H : HashInput → String) (index : Nat) (transactions : List Tx)
    (timestamp : Nat) (previous_hash : String) : Block :=
  let d : BlockData := ⟨index, transactions, timestamp, previous_hash, 0⟩
  ⟨index, transactions, timestamp, previous_hash, 0, H (.init d)⟩

/-- `Block.compute_hash` called on an already-constructed block: serializes
`self.__dict__`, which now *includes* the stored `hash` attribute. -/
def compute_hash (H : HashInput → String) (b : Block) : String :=
  H (.full b.data b.hash)

/-- State of the `Blockchain` class: `chain`, `pending_transactions`, and the
`voters` set of admitted voter ids. -/
structure Blockchain where
  chain : List Block
  pending_transactions : List Tx
  voters : Finset String
deriving DecidableEq

/-- `create_genesis_block`: `Block(0, [], time.time(), "0")`. -/
def create_genesis_block (H : HashInput → String) (ts : Nat) : Block :=
  mkBlock H 0 [] ts "0"

/-- `Blockchain.__init__`: empty pending pool, empty voters set, chain holding
only the genesis block. -/
def Blockchain.initial (H : HashInput → String) (ts : Nat) : Blockchain :=
  ⟨[create_genesis_block H ts], [], ∅⟩

/-- `Blockchain.add_transaction(voter_id, candidate, receipt_id)`: refuses if
the voter id is already in `voters`; otherwise appends the transaction to
`pending_transactions` and immediately adds the voter id to `voters`.
Returns the Python boolean result together with the updated state. -/
def add_transaction (bc : Blockchain) (voter_id candidate receipt_id : String)
    (ts : Nat) : Bool × Blockchain :=
  if voter_id ∈ bc.voters then
    (false, bc)
  else
    (true,
      { bc with
        pending_transactions :=
          bc.pending_transactions ++ [⟨voter_id, candidate, receipt_id, ts⟩]
        voters := insert voter_id bc.voters })

/-- `Blockchain.mine()`: fails on an empty pending pool; otherwise builds one
new block from the whole pending pool, linked to `chain[-1].hash`, appends it
and clears the pool.  (`chain[-1]` on an empty chain would raise in Python;
that state is unreachable because the constructor installs the genesis block,
and the model returns failure there.) -/
def mine (H : HashInput → String) (bc : Blockchain) (ts : Nat) :
    Bool × Blockchain :=
  if bc.pending_transactions = [] then
    (false, bc)
  else
    match bc.chain.getLast? with
    | none => (false, bc)
    | some last =>
        (true,
          { bc with
            chain := bc.chain ++
              [mkBlock H bc.chain.length bc.pending_transactions ts last.hash]
            pending_transactions := [] })

/-- `Blockchain.get_all_transactions()`: transactions of `chain[1:]` (genesis
excluded), in block order then intra-block order. -/
def get_all_transactions (bc : Blockchain) : List Tx :=
  (bc.chain.drop 1).flatMap Block.transactions

/-- `Blockchain.get_results()` is a `defaultdict(int)` counting sealed
transactions per candidate; looked up at a candidate it returns the number of
sealed transactions for that candidate (0 when absent). -/
def get_results (bc : Blockchain) (candidate : String) : Nat :=
  ((get_all_transactions bc).filter (fun tx => tx.candidate = candidate)).length

/-- Single ledger step: one `add_transaction` or one `mine` call, with the
nondeterministic arguments of the call (inputs and clock readings) existentially
chosen. -/
inductive Step (H : HashInput → String) : Blockchain → Blockchain → Prop where
  | vote (bc : Blockchain) (v c r : String) (ts : Nat) :
      Step H bc (add_transaction bc v c r ts).2
  | mined (bc : Blockchain) (ts : Nat) :
      Step H bc (mine H bc ts).2

/-- Reflexive-transitive closure of `Step`: every state obtainable from `bc`
by some further sequence of `add_transaction` / `mine` calls. -/
inductive ReachableFrom (H : HashInput → String) :
    Blockchain → Blockchain → Prop where
  | refl (bc : Blockchain) : ReachableFrom H bc bc
  | tail {bc bc₁ bc₂ : Blockchain} :
      ReachableFrom H bc bc₁ → Step H bc₁ bc₂ → ReachableFrom H bc bc₂

/-- States reachable from a freshly constructed `Blockchain()` by any sequence
of `add_transaction` / `mine` calls. -/
def Reachable (H : HashInput → String) (bc : Blockchain) : Prop :=
  ∃ ts₀, ReachableFrom H (Blockchain.initial H ts₀) bc

/-- Voter ids of the pending transactions. -/
def pending_voter_ids (bc : Blockchain) : Finset String :=
  (bc.pending_transactions.map Tx.voter_id).toFinset

/-- Voter ids occurring in transactions of sealed non-genesis blocks. -/
def sealed_voter_ids (bc : Blockchain) : Finset String :=
  ((get_all_transactions bc).map Tx.voter_id).toFinset

/-- Hash linkage of a chain: every block after the first stores the hash of
its predecessor in `previous_hash`. -/
def chain_linked (l : List Block) : Prop :=
  ∀ i (h : i + 1 < l.length),
    (l.get ⟨i + 1, h⟩).previous_hash = (l.get ⟨i, Nat.lt_of_succ_lt h⟩).hash

/-- Genesis shape of a chain: its first block has index 0, an empty
transaction list and the sentinel previous hash "0". -/
def genesis_ok (l : List Block) : Prop :=
  ∀ g, l.head? = some g →
    g.index = 0 ∧ g.transactions = [] ∧ g.previous_hash = "0"

/-! ## Registry, vote-record tables, receipt verification (src/app2.py) -/

/-- Registered-voter record: one entry of `registered_voters`
(`voter_id : {name, email, domain}`); equivalently one row of the
`voters_df` dataframe built for the fraud scan (Voter ID, Name, Email,
Domain). -/
structure Voter where
  voter_id : String
  name : String
  email : String
  domain : String
deriving DecidableEq, Repr

/-- Row of the `votes_table` dataframe of src/app2.py: Voter ID, Name, Email,
Domain, Candidate, Receipt ID, Vote Method ("Manual" or "QR"), Timestamp
(a formatted time string). -/
structure VoteRow where
  voter_id : String
  name : String
  email : String
  domain : String
  candidate : String
  receipt_id : String
  method : String
  timestamp : String
deriving DecidableEq, Repr

/-- Row of the `votes_table` list of src/app.py: Voter ID, Name, Email,
Domain, Candidate, Receipt, Timestamp. -/
structure VoteRecord where
  voter_id : String
  name : String
  email : String
  domain : String
  candidate : String
  receipt : String
  timestamp : String
deriving DecidableEq, Repr

/-- Outcome of the Verify Vote tab of src/app2.py: a vote found on the
blockchain, a vote found among the QR (side-channel) records, or a miss. -/
inductive VerifyResult where
  | blockchain_vote (tx : Tx)
  | qr_vote (row : VoteRow)
  | not_found
deriving DecidableEq, Repr

/-- Verify Vote logic of src/app2.py (lines 643-677): scan
`get_all_transactions()` for the first transaction whose receipt id matches;
on a miss, scan `votes_table` for the first row whose Receipt ID matches and
whose Vote Method is "QR"; otherwise report a miss. -/
def verify_vote (bc : Blockchain) (table : List VoteRow) (receipt_id : String) :
    VerifyResult :=
  match (get_all_transactions bc).find? (fun tx => tx.receipt_id == receipt_id) with
  | some tx => .blockchain_vote tx
  | none =>
      match table.find? (fun row =>
          row.receipt_id == receipt_id && row.method == "QR") with
      | some row => .qr_vote row
      | none => .not_found

/-! ## Fraud detection of src/app.py (admin_panel, fraud tab)

Python string operations are modelled on `List Char`: `str.lower()` is a
`Char.toLower` map (the data is ASCII, where the two agree), `str.endswith`
is `List.isSuffixOf`, and the `in` substring test is `listInfix`. -/

/-- Denylist of src/app.py. -/
def app_suspicious_domains : List String := ["spam.com", "fake.com", "test.com"]

/-- Rule 1 of the src/app.py fraud tab: flag the `voters_df` index of every
registered voter whose lower-cased email ends with "@" followed by a
denylisted domain. -/
def app_email_flags (voters : List Voter) : List Nat :=
  (voters.enum.filter (fun p =>
      app_suspicious_domains.any (fun s =>
        ("@" ++ s).toList.isSuffixOf (p.2.email.toList.map Char.toLower)))).map
    Prod.fst

/-- Number of rows of `votes_table` in the (domain, candidate) group — the
`groupby([Domain, Candidate]).size()` count of src/app.py. -/
def group_count (rows : List VoteRecord) (domain candidate : String) : Nat :=
  (rows.filter (fun r => r.domain = domain ∧ r.candidate = candidate)).length

/-- Suspicious (Domain, Candidate) groups of src/app.py: those whose group
count exceeds 3. -/
def suspicious_groups (rows : List VoteRecord) : List (String × String) :=
  ((rows.map (fun r => (r.domain, r.candidate))).dedup).filter
    (fun g => 3 < group_count rows g.1 g.2)

/-- Rule 2 of the src/app.py fraud tab (spec rule R3): flag the `votes_table`
index of every vote row belonging to a suspicious (Domain, Candidate)
group. -/
def block_vote_flags (rows : List VoteRecord) : List Nat :=
  (rows.enum.filter (fun p =>
      (p.2.domain, p.2.candidate) ∈ suspicious_groups rows)).map Prod.fst

/-- Flagged index set of the src/app.py fraud tab: `flagged = list(set(...))`
accumulated from both rules (voter indices from rule 1, vote-row indices from
rule 2, in one shared index set, exactly as the source mixes them). -/
def app_fraud_flagged (voters : List Voter) (rows : List VoteRecord) :
    List Nat :=
  (app_email_flags voters ++ block_vote_flags rows).dedup

/-! ## Fraud detection of src/app2.py (Fraud Detection tab) -/

/-- Substring test: `listInfix needle hay` is the Python `needle in hay` on
character lists. -/
def listInfix (needle : List Char) : List Char → Bool
  | [] => needle.isEmpty
  | c :: rest => needle.isPrefixOf (c :: rest) || listInfix needle rest

/-- Python `str.split()`: split on whitespace runs, dropping empty pieces;
`acc` holds the reversed current word. -/
def pyWordsAux : List Char → List Char → List (List Char)
  | [], acc => if acc.isEmpty then [] else [acc.reverse]
  | c :: rest, acc =>
      if c.isWhitespace then
        if acc.isEmpty then pyWordsAux rest []
        else acc.reverse :: pyWordsAux rest []
      else pyWordsAux rest (c :: acc)

/-- Number of whitespace-separated tokens of a Python string
(`len(s.split())`). -/
def pyWordCount (s : String) : Nat := (pyWordsAux s.toList []).length

/-- Count of registered voters sharing an email — the
`value_counts()` entry of that email. -/
def email_count (voters : List Voter) (email : String) : Nat :=
  (voters.filter (fun v => v.email = email)).length

/-- Rule 1 of src/app2.py (spec rule R2): for every email shared by more than
one registered voter, flag all `voters_df` indices carrying that email. -/
def dup_email_flags (voters : List Voter) : List Nat :=
  (voters.enum.filter (fun p => 1 < email_count voters p.2.email)).map Prod.fst

/-- Denylist of src/app2.py. -/
def app2_suspicious_domains : List String :=
  ["spam.com", "fake.com", "test.com", "example.com", "mailinator.com"]

/-- Rule 2 of src/app2.py: flag every voter whose lower-cased domain field
contains a denylisted domain as a substring. -/
def suspicious_domain_flags (voters : List Voter) : List Nat :=
  (voters.enum.filter (fun p =>
      app2_suspicious_domains.any (fun s =>
        listInfix s.toList (p.2.domain.toList.map Char.toLower)))).map Prod.fst

/-- Rule 3 of src/app2.py (spec rule R4): flag every voter whose name has
fewer than 2 whitespace-separated tokens or fewer than 5 characters. -/
def short_name_flags (voters : List Voter) : List Nat :=
  (voters.enum.filter (fun p =>
      pyWordCount p.2.name < 2 ∨ p.2.name.length < 5)).map Prod.fst

/-- Flagged index set of the src/app2.py fraud scan:
`flagged = list(set(flagged))` accumulated from the three rules. -/
def app2_fraud_flagged (voters : List Voter) : List Nat :=
  (dup_email_flags voters ++ suspicious_domain_flags voters ++
    short_name_flags voters).dedup

/-! ## Remediation (src/app2.py, Remove Flagged Registrations) -/

/-- Whole-application state around the ledger: the blockchain, the
`registered_voters` registry (a dict keyed by voter id, modelled as a list of
records in insertion order with unique ids), and the `votes_table`. -/
structure AppState where
  blockchain : Blockchain
  registered_voters : List Voter
  votes_table : List VoteRow
deriving DecidableEq

/-- Python `registered_voters.pop(voter_id, None)`: remove the (unique) dict
entry with that key, when present. -/
def pop_voter (regs : List Voter) (vid : String) : List Voter :=
  regs.eraseP (fun v => v.voter_id == vid)

/-- Remove Flagged Registrations handler of src/app2.py (lines 541-545):
`for voter_id in flagged_df[Voter ID]: registered_voters.pop(voter_id, None)`.
Only the registry is touched. -/
def remove_flagged (st : AppState) (ids : List String) : AppState :=
  { st with registered_voters := ids.foldl pop_voter st.registered_voters }

/-! ## A concrete collision-free digest

The digest used by the source is sha256 over a canonical JSON serialization;
the spec assumes it deterministic and collision-resistant.  `Hdigest` below
is a concrete digest function that is provably injective (encoding the hash
input into a natural number and then into a string), used to instantiate the
collision-resistance hypotheses of the hash theorems on concrete inputs. -/

/-- Injective encoding of a character. -/
def encChar (c : Char) : ℕ := c.toNat

/-- Injective encoding of a string. -/
def encStr (s : String) : ℕ := Encodable.encode (s.toList.map encChar)

/-- Injective encoding of a transaction. -/
def encTx (t : Tx) : ℕ :=
  Encodable.encode (encStr t.voter_id, encStr t.candidate,
    encStr t.receipt_id, t.timestamp)

/-- Injective encoding of the data fields of a block. -/
def encBlockData (d : BlockData) : ℕ :=
  Encodable.encode (d.index, d.transactions.map encTx, d.timestamp,
    encStr d.previous_hash, d.nonce)

/-- Injective encoding of a digest input. -/
def encHashInput : HashInput → ℕ
  | .init d => Encodable.encode (Sum.inl (encBlockData d) : ℕ ⊕ ℕ × ℕ)
  | .full d h =>
      Encodable.encode (Sum.inr (encBlockData d, encStr h) : ℕ ⊕ ℕ × ℕ)

/-- Injective encoding of a natural number as a string. -/
def natToStr (n : ℕ) : String := ⟨List.replicate n 'a'⟩

/-- Concrete injective digest function standing in for the collision-free
sha256-over-canonical-JSON of the source. -/
def Hdigest (x : HashInput) : String := natToStr (encHashInput x)

/-- Ledger invariant maintained by every `add_transaction` / `mine` call:
non-empty chain, genesis shape, hash linkage, and the admitted-voter set
being exactly the pending voter ids together with the sealed voter ids. -/
def LedgerInv (bc : Blockchain) : Prop :=
  bc.chain ≠ [] ∧ genesis_ok bc.chain ∧ chain_linked bc.chain ∧
    bc.voters = pending_voter_ids bc ∪ sealed_voter_ids bc

/-! # Theorems -/

/-! ## Injectivity of the concrete digest -/

theorem encChar_injective : Function.Injective encChar := by
  intro a b h
  have h2 := congrArg Char.ofNat h
  simp only [encChar, Char.ofNat_toNat] at h2
  exact h2

theorem encStr_injective : Function.Injective encStr := by
  intro a b h
  have h2 := Encodable.encode_injective h
  have h3 := List.map_injective_iff.mpr encChar_injective h2
  exact String.ext h3

theorem encTx_injective : Function.Injective encTx := by
  intro a b h
  have h2 := Encodable.encode_injective h
  simp only [Prod.mk.injEq] at h2
  obtain ⟨hv, hc, hr, ht⟩ := h2
  cases a; cases b
  simp only [Tx.mk.injEq]
  exact ⟨encStr_injective hv, encStr_injective hc, encStr_injective hr, ht⟩

theorem encBlockData_injective : Function.Injective encBlockData := by
  intro a b h
  have h2 := Encodable.encode_injective h
  simp only [Prod.mk.injEq] at h2
  obtain ⟨hi, htx, hts, hp, hn⟩ := h2
  cases a; cases b
  simp only [BlockData.mk.injEq]
  exact ⟨hi, List.map_injective_iff.mpr encTx_injective htx, hts,
    encStr_injective hp, hn⟩

theorem encHashInput_injective : Function.Injective encHashInput := by
  intro a b h
  cases a <;> cases b <;>
    simp only [encHashInput] at h <;>
    have h2 := Encodable.encode_injective h <;>
    simp only [Sum.inl.injEq, Sum.inr.injEq, Prod.mk.injEq,
      reduceCtorEq] at h2
  · simp only [HashInput.init.injEq]
    exact encBlockData_injective h2
  · simp only [HashInput.full.injEq]
    exact ⟨encBlockData_injective h2.1, encStr_injective h2.2⟩

theorem natToStr_injective : Function.Injective natToStr := by
  intro a b h
  have h2 := congrArg (fun s => s.data.length) h
  simpa only [natToStr, List.length_replicate] using h2

theorem Hdigest_injective : Function.Injective Hdigest :=
  fun _ _ h => encHashInput_injective (natToStr_injective h)


/-! ## Ledger invariant lemmas -/

theorem add_transaction_chain (bc : Blockchain) (v c r : String) (ts : Nat) :
    (add_transaction bc v c r ts).2.chain = bc.chain := by
  unfold add_transaction
  split <;> rfl

theorem mem_voters_add_transaction (bc : Blockchain) (v c r : String) (ts : Nat) :
    v ∈ (add_transaction bc v c r ts).2.voters := by
  unfold add_transaction
  split
  · assumption
  · exact Finset.mem_insert_self v _

theorem step_voters_mono (H : HashInput → String) {s s' : Blockchain}
    (hst : Step H s s') : s.voters ⊆ s'.voters := by
  cases hst with
  | vote v c r ts =>
      by_cases hv : v ∈ s.voters
      · simp [add_transaction, hv]
      · simp only [add_transaction, hv, if_false]
        exact Finset.subset_insert _ _
  | mined ts =>
      by_cases hp : s.pending_transactions = []
      · simp [mine, hp]
      · simp only [mine, hp, if_false]
        cases hgl : s.chain.getLast? <;> simp [hgl]

theorem reachableFrom_voters_mono (H : HashInput → String) {s s' : Blockchain}
    (h : ReachableFrom H s s') : s.voters ⊆ s'.voters := by
  induction h with
  | refl => exact Finset.Subset.refl _
  | tail hrf hst ih => exact ih.trans (step_voters_mono H hst)

theorem mine_success (H : HashInput → String) (bc : Blockchain) (ts : Nat)
    (hp : bc.pending_transactions ≠ []) (hc : bc.chain ≠ []) :
    mine H bc ts = (true,
      { bc with
        chain := bc.chain ++
          [mkBlock H bc.chain.length bc.pending_transactions ts
            (bc.chain.getLast hc).hash]
        pending_transactions := [] }) := by
  unfold mine
  rw [if_neg hp, List.getLast?_eq_getLast_of_ne_nil hc]

theorem get_all_transactions_append (l : List Block) (p : List Tx)
    (vs : Finset String) (nb : Block) (hc : l ≠ []) :
    get_all_transactions ⟨l ++ [nb], p, vs⟩ =
      get_all_transactions ⟨l, p, vs⟩ ++ nb.transactions := by
  obtain ⟨h0, t, rfl⟩ := List.exists_cons_of_ne_nil hc
  simp [get_all_transactions]

theorem chain_linked_append (l : List Block) (nb : Block) (hc : l ≠ [])
    (hl : chain_linked l) (hprev : nb.previous_hash = (l.getLast hc).hash) :
    chain_linked (l ++ [nb]) := by
  intro i h
  have hlen : (l ++ [nb]).length = l.length + 1 := by simp
  have hi0 : i < l.length := by omega
  by_cases hi : i + 1 < l.length
  · have e1 : (l ++ [nb]).get ⟨i + 1, h⟩ = l.get ⟨i + 1, hi⟩ := by
      simp only [List.get_eq_getElem]
      exact List.getElem_append_left hi
    have e2 : (l ++ [nb]).get ⟨i, Nat.lt_of_succ_lt h⟩ = l.get ⟨i, hi0⟩ := by
      simp only [List.get_eq_getElem]
      exact List.getElem_append_left hi0
    rw [e1, e2]
    exact hl i hi
  · have hi1 : i + 1 = l.length := by omega
    have e1 : (l ++ [nb]).get ⟨i + 1, h⟩ = nb := by
      simp only [List.get_eq_getElem]
      rw [List.getElem_append_right (by omega)]
      simp [hi1]
    have e2 : (l ++ [nb]).get ⟨i, Nat.lt_of_succ_lt h⟩ = l.getLast hc := by
      simp only [List.get_eq_getElem]
      rw [List.getElem_append_left hi0, List.getLast_eq_getElem]
      congr 1
      omega
    rw [e1, e2, hprev]

theorem initial_inv (H : HashInput → String) (ts : Nat) :
    LedgerInv (Blockchain.initial H ts) := by
  refine ⟨by simp [Blockchain.initial], ?_, ?_, ?_⟩
  · intro g hg
    simp only [Blockchain.initial, create_genesis_block, mkBlock,
      List.head?_cons, Option.some.injEq] at hg
    subst hg
    exact ⟨rfl, rfl, rfl⟩
  · intro i h
    simp [Blockchain.initial] at h
  · simp [Blockchain.initial, pending_voter_ids, sealed_voter_ids,
      get_all_transactions]

theorem vote_inv (bc : Blockchain) (v c r : String) (ts : Nat)
    (h : LedgerInv bc) : LedgerInv (add_transaction bc v c r ts).2 := by
  obtain ⟨h1, h2, h3, h4⟩ := h
  by_cases hv : v ∈ bc.voters
  · simpa [add_transaction, hv] using ⟨h1, h2, h3, h4⟩
  · simp only [add_transaction, hv, if_false]
    refine ⟨h1, h2, h3, ?_⟩
    have h4x := fun x => Finset.ext_iff.mp h4 x
    simp only [pending_voter_ids, sealed_voter_ids, Finset.mem_union,
      List.mem_toFinset, List.mem_map] at h4x
    simp only [pending_voter_ids, sealed_voter_ids, get_all_transactions]
    ext x
    simp only [Finset.mem_insert, Finset.mem_union, List.mem_toFinset,
      List.mem_map, List.mem_append, List.mem_singleton]
    constructor
    · intro hx
      rcases hx with hx | hx
      · exact Or.inl ⟨⟨v, c, r, ts⟩, Or.inr rfl, hx.symm⟩
      · rcases (h4x x).mp hx with ⟨tx, htx, he⟩ | hx2
        · exact Or.inl ⟨tx, Or.inl htx, he⟩
        · exact Or.inr hx2
    · intro hx
      rcases hx with ⟨tx, htx | htx, he⟩ | hx
      · exact Or.inr ((h4x x).mpr (Or.inl ⟨tx, htx, he⟩))
      · subst htx
        exact Or.inl he.symm
      · exact Or.inr ((h4x x).mpr (Or.inr hx))

theorem mined_inv (H : HashInput → String) (bc : Blockchain) (ts : Nat)
    (h : LedgerInv bc) : LedgerInv (mine H bc ts).2 := by
  obtain ⟨h1, h2, h3, h4⟩ := h
  by_cases hp : bc.pending_transactions = []
  · simpa [mine, hp] using ⟨h1, h2, h3, h4⟩
  · rw [mine_success H bc ts hp h1]
    refine ⟨by simp, ?_, ?_, ?_⟩
    · intro g hg
      simp only [List.head?_append_of_ne_nil _ h1] at hg
      exact h2 g hg
    · exact chain_linked_append bc.chain _ h1 h3 rfl
    · have hall : get_all_transactions
          { bc with
            chain := bc.chain ++
              [mkBlock H bc.chain.length bc.pending_transactions ts
                (bc.chain.getLast h1).hash]
            pending_transactions := ([] : List Tx) } =
          get_all_transactions bc ++ bc.pending_transactions := by
        have := get_all_transactions_append bc.chain [] bc.voters
          (mkBlock H bc.chain.length bc.pending_transactions ts
            (bc.chain.getLast h1).hash) h1
        simpa [get_all_transactions, mkBlock] using this
      have h4x := fun x => Finset.ext_iff.mp h4 x
      simp only [pending_voter_ids, sealed_voter_ids, Finset.mem_union,
        List.mem_toFinset, List.mem_map] at h4x
      simp only [pending_voter_ids, sealed_voter_ids, hall]
      ext x
      simp only [Finset.mem_union, List.mem_toFinset, List.mem_map,
        List.map_nil, List.not_mem_nil, false_and, exists_false, false_or,
        List.mem_append]
      constructor
      · intro hx
        rcases (h4x x).mp hx with ⟨tx, htx, he⟩ | ⟨tx, htx, he⟩
        · exact ⟨tx, Or.inr htx, he⟩
        · exact ⟨tx, Or.inl htx, he⟩
      · rintro ⟨tx, htx | htx, he⟩
        · exact (h4x x).mpr (Or.inr ⟨tx, htx, he⟩)
        · exact (h4x x).mpr (Or.inl ⟨tx, htx, he⟩)

theorem reachable_inv (H : HashInput → String) {s : Blockchain}
    (hr : Reachable H s) : LedgerInv s := by
  obtain ⟨ts₀, hrf⟩ := hr
  induction hrf with
  | refl => exact initial_inv H ts₀
  | tail hrf hst ih =>
      cases hst with
      | vote v c r ts => exact vote_inv _ v c r ts ih
      | mined ts => exact mined_inv H _ ts ih

theorem mine_success_all_tx (H : HashInput → String) (s : Blockchain) (ts : Nat)
    (hp : s.pending_transactions ≠ []) (h1 : s.chain ≠ []) :
    get_all_transactions (mine H s ts).2 =
      get_all_transactions s ++ s.pending_transactions := by
  rw [mine_success H s ts hp h1]
  have := get_all_transactions_append s.chain [] s.voters
    (mkBlock H s.chain.length s.pending_transactions ts
      (s.chain.getLast h1).hash) h1
  simpa [get_all_transactions, mkBlock] using this

/-! ## Claim theorems -/

/-- C1: on any reachable ledger state, an `add_transaction` for a voter id not
yet admitted succeeds, appends the transaction to the pending pool and
immediately adds the voter id to the admitted set; afterwards, in every state
reachable by further `add_transaction` / `mine` calls (so whether the first
transaction is still pending or already sealed), every later
`add_transaction` for the same voter id returns `False` and changes
nothing. -/
theorem voter_id_accepted_at_most_once (H : HashInput → String)
    (s : Blockchain) (v c r : String) (ts : Nat)
    (hr : Reachable H s) (hv : v ∉ s.voters) :
    (add_transaction s v c r ts).1 = true ∧
    (add_transaction s v c r ts).2.pending_transactions
      = s.pending_transactions ++ [⟨v, c, r, ts⟩] ∧
    (add_transaction s v c r ts).2.voters = insert v s.voters ∧
    (∀ s', ReachableFrom H (add_transaction s v c r ts).2 s' →
      ∀ c' r' ts', (add_transaction s' v c' r' ts').1 = false ∧
        (add_transaction s' v c' r' ts').2 = s') := by
  refine ⟨by simp [add_transaction, hv], by simp [add_transaction, hv],
    by simp [add_transaction, hv], ?_⟩
  intro s' hs' c' r' ts'
  have hmem : v ∈ s'.voters :=
    reachableFrom_voters_mono H hs' (mem_voters_add_transaction s v c r ts)
  constructor <;> simp [add_transaction, hmem]

/-- C1 witness: concretely, voter V1 is accepted once on the fresh ledger and,
after the vote is sealed by `mine`, a second vote by V1 is rejected. -/
theorem voter_id_accepted_at_most_once_witness :
    Reachable Hdigest (Blockchain.initial Hdigest 0) ∧
    "V1" ∉ (Blockchain.initial Hdigest 0).voters ∧
    (add_transaction (Blockchain.initial Hdigest 0) "V1" "Alice" "r1" 1).1
      = true ∧
    (add_transaction
      (mine Hdigest
        (add_transaction (Blockchain.initial Hdigest 0) "V1" "Alice" "r1" 1).2
        2).2
      "V1" "Bob" "r2" 3).1 = false := by
  have hr : Reachable Hdigest (Blockchain.initial Hdigest 0) :=
    ⟨0, .refl _⟩
  have hv : "V1" ∉ (Blockchain.initial Hdigest 0).voters := by
    simp [Blockchain.initial]
  have h := voter_id_accepted_at_most_once Hdigest _ "V1" "Alice" "r1" 1 hr hv
  exact ⟨hr, hv, h.1,
    (h.2.2.2 _ (.tail (.refl _) (.mined _ 2)) "Bob" "r2" 3).1⟩

/-- C2: on any reachable ledger state, `mine` with an empty pending queue
returns failure and leaves the state untouched, while `mine` with a non-empty
pending queue succeeds and appends exactly one new block holding the entire
pending queue in admission order, clears the pending queue, and leaves the
admitted-voter set unchanged. -/
theorem mine_seals_pending (H : HashInput → String) (s : Blockchain) (ts : Nat)
    (hr : Reachable H s) :
    (s.pending_transactions = [] → mine H s ts = (false, s)) ∧
    (s.pending_transactions ≠ [] →
      ∃ nb : Block,
        (mine H s ts).1 = true ∧
        (mine H s ts).2.chain = s.chain ++ [nb] ∧
        nb.transactions = s.pending_transactions ∧
        (mine H s ts).2.pending_transactions = [] ∧
        (mine H s ts).2.voters = s.voters) := by
  constructor
  · intro hp
    simp [mine, hp]
  · intro hp
    rw [mine_success H s ts hp (reachable_inv H hr).1]
    exact ⟨_, rfl, rfl, rfl, rfl, rfl⟩

/-- C2 witness: concretely, mining the fresh ledger (empty queue) fails and
changes nothing, and mining after one admitted vote succeeds and empties the
queue. -/
theorem mine_seals_pending_witness :
    mine Hdigest (Blockchain.initial Hdigest 0) 5
      = (false, Blockchain.initial Hdigest 0) ∧
    (add_transaction (Blockchain.initial Hdigest 0) "V1" "Alice" "r1" 1).2.pending_transactions
      ≠ [] ∧
    (mine Hdigest
      (add_transaction (Blockchain.initial Hdigest 0) "V1" "Alice" "r1" 1).2
      2).1 = true := by
  have hr0 : Reachable Hdigest (Blockchain.initial Hdigest 0) :=
    ⟨0, .refl _⟩
  have hr1 : Reachable Hdigest
      (add_transaction (Blockchain.initial Hdigest 0) "V1" "Alice" "r1" 1).2 :=
    ⟨0, .tail (.refl _) (.vote _ "V1" "Alice" "r1" 1)⟩
  have hp : (add_transaction (Blockchain.initial Hdigest 0) "V1" "Alice" "r1" 1).2.pending_transactions
      ≠ [] := by
    simp [add_transaction, Blockchain.initial]
  obtain ⟨nb, hb1, -, -, -, -⟩ := (mine_seals_pending Hdigest _ 2 hr1).2 hp
  exact ⟨(mine_seals_pending Hdigest _ 5 hr0).1 rfl, hp, hb1⟩

/-- C3: chain-integrity invariant — in every reachable ledger state the chain
is non-empty, its first block is the genesis block (index 0, no transactions,
previous hash the sentinel "0"), and every later block stores the hash of its
predecessor in `previous_hash`. -/
theorem chain_integrity (H : HashInput → String) (s : Blockchain)
    (hr : Reachable H s) :
    s.chain ≠ [] ∧ genesis_ok s.chain ∧ chain_linked s.chain := by
  obtain ⟨h1, h2, h3, -⟩ := reachable_inv H hr
  exact ⟨h1, h2, h3⟩

/-- C3 witness: the invariant instantiated at the concrete state reached by
admitting one vote and sealing it. -/
theorem chain_integrity_witness :
    (mine Hdigest
        (add_transaction (Blockchain.initial Hdigest 0) "V1" "Alice" "r1" 1).2
        2).2.chain ≠ [] ∧
    genesis_ok
      (mine Hdigest
        (add_transaction (Blockchain.initial Hdigest 0) "V1" "Alice" "r1" 1).2
        2).2.chain ∧
    chain_linked
      (mine Hdigest
        (add_transaction (Blockchain.initial Hdigest 0) "V1" "Alice" "r1" 1).2
        2).2.chain :=
  chain_integrity Hdigest _
    ⟨0, .tail (.tail (.refl _) (.vote _ "V1" "Alice" "r1" 1)) (.mined _ 2)⟩

/-- C4: `get_results` counts only sealed transactions — on any reachable
state an `add_transaction` leaves every tally unchanged, and a `mine`
increases the tally of each candidate by exactly the number of pending
transactions for that candidate (zero when the queue is empty and the seal
fails). -/
theorem tally_counts_sealed_only (H : HashInput → String) (s : Blockchain)
    (hr : Reachable H s) :
    (∀ v c r ts cand,
        get_results (add_transaction s v c r ts).2 cand = get_results s cand) ∧
    (∀ ts cand,
        get_results (mine H s ts).2 cand
          = get_results s cand
            + (s.pending_transactions.filter
                (fun tx => tx.candidate = cand)).length) := by
  constructor
  · intro v c r ts cand
    unfold get_results get_all_transactions
    rw [add_transaction_chain]
  · intro ts cand
    by_cases hp : s.pending_transactions = []
    · simp [mine, hp]
    · rw [get_results, mine_success_all_tx H s ts hp (reachable_inv H hr).1]
      simp [get_results, List.filter_append]

/-- C4 witness: concretely, after admitting a vote for Alice the tally of
Alice is still 0, and after sealing it becomes 1 (= 0 + the one pending
Alice vote). -/
theorem tally_counts_sealed_only_witness :
    get_results
        (add_transaction (Blockchain.initial Hdigest 0) "V1" "Alice" "r1" 1).2
        "Alice"
      = get_results (Blockchain.initial Hdigest 0) "Alice" ∧
    get_results
        (mine Hdigest
          (add_transaction (Blockchain.initial Hdigest 0) "V1" "Alice" "r1" 1).2
          2).2 "Alice"
      = get_results
          (add_transaction (Blockchain.initial Hdigest 0) "V1" "Alice" "r1" 1).2
          "Alice"
        + ((add_transaction (Blockchain.initial Hdigest 0) "V1" "Alice" "r1" 1).2.pending_transactions.filter
            (fun tx => tx.candidate = "Alice")).length := by
  have hr0 : Reachable Hdigest (Blockchain.initial Hdigest 0) :=
    ⟨0, .refl _⟩
  have hr1 : Reachable Hdigest
      (add_transaction (Blockchain.initial Hdigest 0) "V1" "Alice" "r1" 1).2 :=
    ⟨0, .tail (.refl _) (.vote _ "V1" "Alice" "r1" 1)⟩
  exact ⟨(tally_counts_sealed_only Hdigest _ hr0).1 "V1" "Alice" "r1" 1 "Alice",
    (tally_counts_sealed_only Hdigest _ hr1).2 2 "Alice"⟩

/-- C10: implicit invariant — in every reachable ledger state the
admitted-voter set is exactly the voter ids of the pending queue together
with the voter ids sealed in non-genesis blocks; a successful
`add_transaction` adds exactly the one admitted voter id, and `mine` never
changes the admitted set. -/
theorem admitted_set_matches_ledger (H : HashInput → String) (s : Blockchain)
    (hr : Reachable H s) :
    s.voters = pending_voter_ids s ∪ sealed_voter_ids s ∧
    (∀ v c r ts, v ∉ s.voters →
      (add_transaction s v c r ts).2.voters = insert v s.voters) ∧
    (∀ ts, (mine H s ts).2.voters = s.voters) := by
  refine ⟨(reachable_inv H hr).2.2.2, ?_, ?_⟩
  · intro v c r ts hv
    simp [add_transaction, hv]
  · intro ts
    by_cases hp : s.pending_transactions = []
    · simp [mine, hp]
    · rw [mine_success H s ts hp (reachable_inv H hr).1]

/-- C10 witness: the invariant instantiated at the concrete state reached by
admitting one vote and sealing it, together with the effect of one more
admission there. -/
theorem admitted_set_matches_ledger_witness :
    (mine Hdigest
        (add_transaction (Blockchain.initial Hdigest 0) "V1" "Alice" "r1" 1).2
        2).2.voters
      = pending_voter_ids
          (mine Hdigest
            (add_transaction (Blockchain.initial Hdigest 0) "V1" "Alice" "r1" 1).2
            2).2
        ∪ sealed_voter_ids
          (mine Hdigest
            (add_transaction (Blockchain.initial Hdigest 0) "V1" "Alice" "r1" 1).2
            2).2 ∧
    (mine Hdigest
        (mine Hdigest
          (add_transaction (Blockchain.initial Hdigest 0) "V1" "Alice" "r1" 1).2
          2).2 7).2.voters
      = (mine Hdigest
          (add_transaction (Blockchain.initial Hdigest 0) "V1" "Alice" "r1" 1).2
          2).2.voters := by
  have h := admitted_set_matches_ledger Hdigest _
    ⟨0, .tail (.tail (.refl _) (.vote _ "V1" "Alice" "r1" 1)) (.mined _ 2)⟩
  exact ⟨h.1, h.2.2 7⟩

/-- C5 counterexample: with a concrete injective (collision-free) digest, the
block built by `Block.__init__` stores a hash over the five data fields, but
calling `compute_hash` again on the very same, unmutated block serializes the
dictionary that now also contains the stored `hash` field — so the recomputed
digest differs from the stored one. -/
theorem compute_hash_recompute_cex :
    compute_hash Hdigest (mkBlock Hdigest 1 [⟨"V1", "Alice", "r1", 5⟩] 7 "0")
      ≠ (mkBlock Hdigest 1 [⟨"V1", "Alice", "r1", 5⟩] 7 "0").hash := by
  intro h
  simp only [compute_hash, mkBlock, Block.data] at h
  exact HashInput.noConfusion (Hdigest_injective h)

/-- C5 (amended): for a collision-free digest, the stored hash of a sealed
block is the digest over all block fields except the digest itself (index,
transactions, timestamp, previous hash, nonce); recomputing `compute_hash`
on the unmutated block yields a digest *different* from the stored hash
(because the recomputation also serializes the stored hash field), and
recomputing after mutating any of index, transactions, timestamp or
previous hash yields a digest different from the unmutated recomputation. -/
theorem block_hash_spec (H : HashInput → String) (hH : Function.Injective H)
    (index : Nat) (txs : List Tx) (ts : Nat) (prev : String) :
    (mkBlock H index txs ts prev).hash
        = H (.init ⟨index, txs, ts, prev, 0⟩) ∧
    compute_hash H (mkBlock H index txs ts prev)
        ≠ (mkBlock H index txs ts prev).hash ∧
    (∀ i₂, i₂ ≠ index →
      compute_hash H { mkBlock H index txs ts prev with index := i₂ }
        ≠ compute_hash H (mkBlock H index txs ts prev)) ∧
    (∀ txs₂, txs₂ ≠ txs →
      compute_hash H { mkBlock H index txs ts prev with transactions := txs₂ }
        ≠ compute_hash H (mkBlock H index txs ts prev)) ∧
    (∀ ts₂, ts₂ ≠ ts →
      compute_hash H { mkBlock H index txs ts prev with timestamp := ts₂ }
        ≠ compute_hash H (mkBlock H index txs ts prev)) ∧
    (∀ p₂, p₂ ≠ prev →
      compute_hash H { mkBlock H index txs ts prev with previous_hash := p₂ }
        ≠ compute_hash H (mkBlock H index txs ts prev)) := by
  refine ⟨rfl, ?_, ?_, ?_, ?_, ?_⟩
  · intro h
    simp only [compute_hash, mkBlock, Block.data] at h
    exact HashInput.noConfusion (hH h)
  all_goals intro x hx h
  all_goals simp only [compute_hash, mkBlock, Block.data] at h
  all_goals have h2 := hH h
  all_goals simp only [HashInput.full.injEq, BlockData.mk.injEq] at h2
  all_goals simp_all

/-- C5 witness: the amended hash facts instantiated with the concrete
injective digest `Hdigest` at a concrete block. -/
theorem block_hash_spec_witness :
    Function.Injective Hdigest ∧
    (2 : Nat) ≠ 1 ∧
    (mkBlock Hdigest 1 [] 7 "0").hash
        = Hdigest (.init ⟨1, [], 7, "0", 0⟩) ∧
    compute_hash Hdigest (mkBlock Hdigest 1 [] 7 "0")
        ≠ (mkBlock Hdigest 1 [] 7 "0").hash ∧
    compute_hash Hdigest { mkBlock Hdigest 1 [] 7 "0" with index := 2 }
        ≠ compute_hash Hdigest (mkBlock Hdigest 1 [] 7 "0") := by
  have h := block_hash_spec Hdigest Hdigest_injective 1 [] 7 "0"
  exact ⟨Hdigest_injective, by decide, h.1, h.2.1, h.2.2.1 2 (by decide)⟩

/-- C6: receipt lookup searches sealed-ledger transactions first — for a
receipt id carried by a (unique) sealed transaction it reports exactly that
transaction; for a receipt id matching no sealed transaction and no QR
(side-channel) record it reports a miss. -/
theorem verify_vote_spec (bc : Blockchain) (table : List VoteRow) (r : String) :
    (∀ t, t ∈ get_all_transactions bc → t.receipt_id = r →
      (∀ u, u ∈ get_all_transactions bc → u.receipt_id = r → u = t) →
      verify_vote bc table r = .blockchain_vote t) ∧
    ((∀ t, t ∈ get_all_transactions bc → t.receipt_id ≠ r) →
      (∀ row, row ∈ table → ¬(row.receipt_id = r ∧ row.method = "QR")) →
      verify_vote bc table r = .not_found) := by
  constructor
  · intro t ht hrc huniq
    unfold verify_vote
    cases hf : (get_all_transactions bc).find? (fun tx => tx.receipt_id == r) with
    | none =>
        exfalso
        have hn := List.find?_eq_none.mp hf t ht
        simp [hrc] at hn
    | some u =>
        have hu1 := List.mem_of_find?_eq_some hf
        have hu2 := List.find?_some hf
        simp only [beq_iff_eq] at hu2
        rw [huniq u hu1 hu2]
  · intro h1 h2
    unfold verify_vote
    cases hf : (get_all_transactions bc).find? (fun tx => tx.receipt_id == r) with
    | some u =>
        exfalso
        have hu2 := List.find?_some hf
        simp only [beq_iff_eq] at hu2
        exact h1 u (List.mem_of_find?_eq_some hf) hu2
    | none =>
        cases hg : table.find? (fun row =>
            row.receipt_id == r && row.method == "QR") with
        | some row =>
            exfalso
            have hg2 := List.find?_some hg
            simp only [Bool.and_eq_true, beq_iff_eq] at hg2
            exact h2 row (List.mem_of_find?_eq_some hg) hg2
        | none => rfl

/-- C6 witness: on a concrete two-block ledger holding one sealed transaction
with receipt r1 and an empty side-channel table, looking up r1 returns that
transaction and looking up an unknown receipt reports a miss. -/
theorem verify_vote_spec_witness :
    (⟨"V1", "Alice", "r1", 1⟩ : Tx) ∈ get_all_transactions
        ⟨[⟨0, [], 0, "0", 0, "g"⟩, ⟨1, [⟨"V1", "Alice", "r1", 1⟩], 2, "g", 0, "h1"⟩],
          [], ∅⟩ ∧
    verify_vote
        ⟨[⟨0, [], 0, "0", 0, "g"⟩, ⟨1, [⟨"V1", "Alice", "r1", 1⟩], 2, "g", 0, "h1"⟩],
          [], ∅⟩ [] "r1"
      = .blockchain_vote ⟨"V1", "Alice", "r1", 1⟩ ∧
    verify_vote
        ⟨[⟨0, [], 0, "0", 0, "g"⟩, ⟨1, [⟨"V1", "Alice", "r1", 1⟩], 2, "g", 0, "h1"⟩],
          [], ∅⟩ [] "zz"
      = .not_found := by
  refine ⟨by decide, ?_, ?_⟩
  · exact (verify_vote_spec _ [] "r1").1 ⟨"V1", "Alice", "r1", 1⟩ (by decide)
      (by decide) (by decide)
  · exact (verify_vote_spec _ [] "zz").2 (by decide) (by decide)

theorem mem_enum_of_lt {α : Type} (l : List α) (i : Nat) (hi : i < l.length) :
    (i, l.get ⟨i, hi⟩) ∈ l.enum := by
  have h2 : l.enum[i]? = some (i, l.get ⟨i, hi⟩) := by
    simp [List.getElem?_enum, hi]
  exact List.getElem?_mem h2

/-- C7: fraud rule R3 — whenever a (domain, candidate) group of the cast-vote
table has more than 3 votes, the index of every vote row in that group is in
the flagged set of the src/app.py fraud scan. -/
theorem r3_group_all_flagged (voters : List Voter) (rows : List VoteRecord)
    (d c : String) (hcount : 3 < group_count rows d c)
    (i : Nat) (hi : i < rows.length)
    (hd : (rows.get ⟨i, hi⟩).domain = d)
    (hc : (rows.get ⟨i, hi⟩).candidate = c) :
    i ∈ app_fraud_flagged voters rows := by
  subst hd
  subst hc
  have hmem := mem_enum_of_lt rows i hi
  have hgrp : ((rows.get ⟨i, hi⟩).domain, (rows.get ⟨i, hi⟩).candidate)
      ∈ suspicious_groups rows := by
    unfold suspicious_groups
    rw [List.mem_filter, List.mem_dedup]
    refine ⟨List.mem_map.mpr ⟨rows.get ⟨i, hi⟩, List.get_mem _ _ _, rfl⟩, ?_⟩
    exact decide_eq_true hcount
  unfold app_fraud_flagged
  rw [List.mem_dedup, List.mem_append]
  right
  unfold block_vote_flags
  rw [List.mem_map]
  refine ⟨(i, rows.get ⟨i, hi⟩), ?_, rfl⟩
  rw [List.mem_filter]
  exact ⟨hmem, decide_eq_true hgrp⟩

/-- C7 witness: five votes from domain acme.org for candidate Alice — the
group count 5 exceeds the threshold 3 and all five vote rows are flagged. -/
theorem r3_group_all_flagged_witness :
    3 < group_count
        [⟨"V1", "A B", "a@x.org", "acme.org", "Alice", "r1", "t1"⟩,
         ⟨"V2", "C D", "b@x.org", "acme.org", "Alice", "r2", "t2"⟩,
         ⟨"V3", "E F", "c@x.org", "acme.org", "Alice", "r3", "t3"⟩,
         ⟨"V4", "G H", "d@x.org", "acme.org", "Alice", "r4", "t4"⟩,
         ⟨"V5", "I J", "e@x.org", "acme.org", "Alice", "r5", "t5"⟩]
        "acme.org" "Alice" ∧
    0 ∈ app_fraud_flagged []
        [⟨"V1", "A B", "a@x.org", "acme.org", "Alice", "r1", "t1"⟩,
         ⟨"V2", "C D", "b@x.org", "acme.org", "Alice", "r2", "t2"⟩,
         ⟨"V3", "E F", "c@x.org", "acme.org", "Alice", "r3", "t3"⟩,
         ⟨"V4", "G H", "d@x.org", "acme.org", "Alice", "r4", "t4"⟩,
         ⟨"V5", "I J", "e@x.org", "acme.org", "Alice", "r5", "t5"⟩] ∧
    1 ∈ app_fraud_flagged []
        [⟨"V1", "A B", "a@x.org", "acme.org", "Alice", "r1", "t1"⟩,
         ⟨"V2", "C D", "b@x.org", "acme.org", "Alice", "r2", "t2"⟩,
         ⟨"V3", "E F", "c@x.org", "acme.org", "Alice", "r3", "t3"⟩,
         ⟨"V4", "G H", "d@x.org", "acme.org", "Alice", "r4", "t4"⟩,
         ⟨"V5", "I J", "e@x.org", "acme.org", "Alice", "r5", "t5"⟩] ∧
    2 ∈ app_fraud_flagged []
        [⟨"V1", "A B", "a@x.org", "acme.org", "Alice", "r1", "t1"⟩,
         ⟨"V2", "C D", "b@x.org", "acme.org", "Alice", "r2", "t2"⟩,
         ⟨"V3", "E F", "c@x.org", "acme.org", "Alice", "r3", "t3"⟩,
         ⟨"V4", "G H", "d@x.org", "acme.org", "Alice", "r4", "t4"⟩,
         ⟨"V5", "I J", "e@x.org", "acme.org", "Alice", "r5", "t5"⟩] ∧
    3 ∈ app_fraud_flagged []
        [⟨"V1", "A B", "a@x.org", "acme.org", "Alice", "r1", "t1"⟩,
         ⟨"V2", "C D", "b@x.org", "acme.org", "Alice", "r2", "t2"⟩,
         ⟨"V3", "E F", "c@x.org", "acme.org", "Alice", "r3", "t3"⟩,
         ⟨"V4", "G H", "d@x.org", "acme.org", "Alice", "r4", "t4"⟩,
         ⟨"V5", "I J", "e@x.org", "acme.org", "Alice", "r5", "t5"⟩] ∧
    4 ∈ app_fraud_flagged []
        [⟨"V1", "A B", "a@x.org", "acme.org", "Alice", "r1", "t1"⟩,
         ⟨"V2", "C D", "b@x.org", "acme.org", "Alice", "r2", "t2"⟩,
         ⟨"V3", "E F", "c@x.org", "acme.org", "Alice", "r3", "t3"⟩,
         ⟨"V4", "G H", "d@x.org", "acme.org", "Alice", "r4", "t4"⟩,
         ⟨"V5", "I J", "e@x.org", "acme.org", "Alice", "r5", "t5"⟩] := by
  refine ⟨by decide, ?_, ?_, ?_, ?_, ?_⟩ <;>
    exact r3_group_all_flagged [] _ "acme.org" "Alice" (by decide) _
      (by decide) (by decide) (by decide)

theorem two_le_countP {α : Type} (p : α → Bool) :
    ∀ (l : List α) (i j : Nat) (hij : i < j) (hj : j < l.length),
      p (l.get ⟨i, Nat.lt_trans hij hj⟩) = true → p (l.get ⟨j, hj⟩) = true →
      2 ≤ l.countP p := by
  intro l
  induction l with
  | nil =>
      intro i j hij hj hpi hpj
      simp at hj
  | cons a t ih =>
      intro i j hij hj hpi hpj
      match i, j with
      | 0, j + 1 =>
          have hpa : p a = true := hpi
          have hj2 : j < t.length := by simpa using hj
          have h1 : 0 < t.countP p :=
            List.countP_pos_iff.mpr ⟨t.get ⟨j, hj2⟩, List.get_mem _ _ _, hpj⟩
          rw [List.countP_cons_of_pos _ _ hpa]
          omega
      | i + 1, j + 1 =>
          have h1 := ih i j (by omega) (by simpa using hj) hpi hpj
          refine le_trans h1 ?_
          rw [List.countP_cons]
          exact Nat.le_add_right _ _

theorem dup_email_mem (vs : List Voter) (i : Nat) (hi : i < vs.length)
    (hc : 1 < email_count vs (vs.get ⟨i, hi⟩).email) :
    i ∈ app2_fraud_flagged vs := by
  unfold app2_fraud_flagged
  rw [List.mem_dedup, List.mem_append, List.mem_append]
  left; left
  unfold dup_email_flags
  rw [List.mem_map]
  refine ⟨(i, vs.get ⟨i, hi⟩), ?_, rfl⟩
  rw [List.mem_filter]
  exact ⟨mem_enum_of_lt vs i hi, decide_eq_true hc⟩

/-- C8: fraud rule R2 — whenever two distinct registered voters share an
email address, both their indices are in the flagged set of the src/app2.py
fraud scan. -/
theorem duplicate_email_both_flagged (vs : List Voter) (i j : Nat)
    (hi : i < vs.length) (hj : j < vs.length) (hij : i ≠ j)
    (he : (vs.get ⟨i, hi⟩).email = (vs.get ⟨j, hj⟩).email) :
    i ∈ app2_fraud_flagged vs ∧ j ∈ app2_fraud_flagged vs := by
  have hcount : 1 < email_count vs (vs.get ⟨i, hi⟩).email := by
    have hcp : email_count vs (vs.get ⟨i, hi⟩).email
        = vs.countP (fun v => v.email = (vs.get ⟨i, hi⟩).email) := by
      unfold email_count
      rw [List.countP_eq_length_filter]
    rw [hcp]
    rcases Nat.lt_or_ge i j with hlt | hge
    · have := two_le_countP (fun v => v.email = (vs.get ⟨i, hi⟩).email)
        vs i j hlt hj (decide_eq_true rfl) (decide_eq_true he.symm)
      omega
    · have hgt : j < i := by omega
      have := two_le_countP (fun v => v.email = (vs.get ⟨i, hi⟩).email)
        vs j i hgt hi (decide_eq_true he.symm) (decide_eq_true rfl)
      omega
  refine ⟨dup_email_mem vs i hi hcount, dup_email_mem vs j hj ?_⟩
  rwa [← he]

/-- C8 witness: two registered voters sharing one email are both flagged. -/
theorem duplicate_email_both_flagged_witness :
    (0 : Nat) ≠ 1 ∧
    (([⟨"V1", "Jane Doe", "shared@x.org", "acme.org"⟩,
       ⟨"V2", "John Roe", "shared@x.org", "acme.org"⟩] : List Voter).get
        ⟨0, by decide⟩).email
      = (([⟨"V1", "Jane Doe", "shared@x.org", "acme.org"⟩,
           ⟨"V2", "John Roe", "shared@x.org", "acme.org"⟩] : List Voter).get
          ⟨1, by decide⟩).email ∧
    0 ∈ app2_fraud_flagged
        [⟨"V1", "Jane Doe", "shared@x.org", "acme.org"⟩,
         ⟨"V2", "John Roe", "shared@x.org", "acme.org"⟩] ∧
    1 ∈ app2_fraud_flagged
        [⟨"V1", "Jane Doe", "shared@x.org", "acme.org"⟩,
         ⟨"V2", "John Roe", "shared@x.org", "acme.org"⟩] := by
  have h := duplicate_email_both_flagged
    [⟨"V1", "Jane Doe", "shared@x.org", "acme.org"⟩,
     ⟨"V2", "John Roe", "shared@x.org", "acme.org"⟩]
    0 1 (by decide) (by decide) (by decide) (by decide)
  exact ⟨by decide, by decide, h.1, h.2⟩

theorem eraseP_eq_filter_of_nodup (regs : List Voter) (a : String)
    (h : (regs.map Voter.voter_id).Nodup) :
    regs.eraseP (fun v => v.voter_id == a)
      = regs.filter (fun v => ¬ v.voter_id = a) := by
  induction regs with
  | nil => rfl
  | cons v t ih =>
      simp only [List.map_cons, List.nodup_cons] at h
      obtain ⟨hv, ht⟩ := h
      by_cases hva : v.voter_id = a
      · rw [List.eraseP_cons_of_pos (by simp [hva]),
          List.filter_cons_of_neg (by simp [hva])]
        rw [List.filter_eq_self.mpr]
        intro x hx
        have hne : ¬ x.voter_id = a := by
          intro hxa
          exact hv (by
            rw [hva, ← hxa]
            exact List.mem_map.mpr ⟨x, hx, rfl⟩)
        exact decide_eq_true hne
      · rw [List.eraseP_cons_of_neg (by simp [hva]),
          List.filter_cons_of_pos (by simp [hva]), ih ht]

theorem pop_voter_nodup (regs : List Voter) (a : String)
    (h : (regs.map Voter.voter_id).Nodup) :
    ((pop_voter regs a).map Voter.voter_id).Nodup :=
  h.sublist ((List.eraseP_sublist _).map Voter.voter_id)

theorem foldl_pop_eq_filter :
    ∀ (ids : List String) (regs : List Voter),
      (regs.map Voter.voter_id).Nodup →
      ids.foldl pop_voter regs = regs.filter (fun v => v.voter_id ∉ ids) := by
  intro ids
  induction ids with
  | nil =>
      intro regs h
      simp
  | cons a ids ih =>
      intro regs h
      rw [List.foldl_cons, ih (pop_voter regs a) (pop_voter_nodup regs a h)]
      show (regs.eraseP (fun v => v.voter_id == a)).filter _ = _
      rw [eraseP_eq_filter_of_nodup regs a h, List.filter_filter]
      apply List.filter_congr
      intro x hx
      simp only [List.mem_cons, not_or, Bool.decide_and, decide_not]
      rw [Bool.and_comm]

/-- C9: the remediation loop deletes exactly the named voter ids from the
registry (each registry entry survives iff its voter id is not in the flagged
list, order preserved) and touches nothing else — the blockchain, its chain,
its sealed transactions, its pending queue, its admitted-voter set, and the
votes table are all unchanged. -/
theorem remove_flagged_spec (st : AppState) (ids : List String)
    (hnd : (st.registered_voters.map Voter.voter_id).Nodup) :
    (remove_flagged st ids).registered_voters
        = st.registered_voters.filter (fun v => v.voter_id ∉ ids) ∧
    (remove_flagged st ids).blockchain = st.blockchain ∧
    (remove_flagged st ids).blockchain.chain = st.blockchain.chain ∧
    get_all_transactions (remove_flagged st ids).blockchain
        = get_all_transactions st.blockchain ∧
    (remove_flagged st ids).blockchain.pending_transactions
        = st.blockchain.pending_transactions ∧
    (remove_flagged st ids).blockchain.voters = st.blockchain.voters ∧
    (remove_flagged st ids).votes_table = st.votes_table := by
  exact ⟨foldl_pop_eq_filter ids st.registered_voters hnd,
    rfl, rfl, rfl, rfl, rfl, rfl⟩

/-- C9 witness: removing flagged voter V1 from a concrete state with a sealed
V1 transaction deletes exactly the V1 registry entry and leaves the
blockchain untouched. -/
theorem remove_flagged_spec_witness :
    ((AppState.mk
        ⟨[⟨0, [], 0, "0", 0, "g"⟩,
          ⟨1, [⟨"V1", "Alice", "r1", 1⟩], 2, "g", 0, "h1"⟩], [], {"V1"}⟩
        [⟨"V1", "Jane Doe", "jane@x.org", "acme.org"⟩,
         ⟨"V2", "John Roe", "john@x.org", "acme.org"⟩]
        []).registered_voters.map Voter.voter_id).Nodup ∧
    (remove_flagged
        (AppState.mk
          ⟨[⟨0, [], 0, "0", 0, "g"⟩,
            ⟨1, [⟨"V1", "Alice", "r1", 1⟩], 2, "g", 0, "h1"⟩], [], {"V1"}⟩
          [⟨"V1", "Jane Doe", "jane@x.org", "acme.org"⟩,
           ⟨"V2", "John Roe", "john@x.org", "acme.org"⟩]
          [])
        ["V1"]).registered_voters
      = [⟨"V2", "John Roe", "john@x.org", "acme.org"⟩] ∧
    (remove_flagged
        (AppState.mk
          ⟨[⟨0, [], 0, "0", 0, "g"⟩,
            ⟨1, [⟨"V1", "Alice", "r1", 1⟩], 2, "g", 0, "h1"⟩], [], {"V1"}⟩
          [⟨"V1", "Jane Doe", "jane@x.org", "acme.org"⟩,
           ⟨"V2", "John Roe", "john@x.org", "acme.org"⟩]
          [])
        ["V1"]).blockchain
      = ⟨[⟨0, [], 0, "0", 0, "g"⟩,
          ⟨1, [⟨"V1", "Alice", "r1", 1⟩], 2, "g", 0, "h1"⟩], [], {"V1"}⟩ := by
  have h := remove_flagged_spec
    (AppState.mk
      ⟨[⟨0, [], 0, "0", 0, "g"⟩,
        ⟨1, [⟨"V1", "Alice", "r1", 1⟩], 2, "g", 0, "h1"⟩], [], {"V1"}⟩
      [⟨"V1", "Jane Doe", "jane@x.org", "acme.org"⟩,
       ⟨"V2", "John Roe", "john@x.org", "acme.org"⟩]
      [])
    ["V1"] (by decide)
  refine ⟨by decide, ?_, h.2.1⟩
  rw [h.1]
  decide
